import Mathlib

/-!
Verification of the policy merge and application core of adsys
(`internal/policies/policies.go`), shallowly embedded in Lean 4.

Go maps are modelled as Lean functions (total, with the Go zero value as
default) or association lists in iteration order; the `seen` set keyed by
the concatenated string `t + e.Key` is modelled exactly as in the source.
-/

namespace Adsys

/-- Modelled from the spec: the Rule Entry data type from the
`internal/policies/entry` package (not part of the provided source file):
`{Key, Value string; Disabled bool; Meta string; Strategy string}`. -/
structure Entry where
  Key : String
  Value : String
  Disabled : Bool
  Meta : String
  Strategy : String
deriving DecidableEq

/-- Modelled from the spec: the strategy constant `entry.StrategyAppend`. -/
def StrategyAppend : String := "append"

/-- Modelled from the spec: the default strategy constant. Anything that is
not `StrategyAppend` falls into the `default` branch of the Go switch. -/
def StrategyOverride : String := "override"

/-- The Go zero value of `entry.Entry`, produced by a lookup of a missing
key in a Go map. -/
def Entry.zero : Entry := ⟨"", "", false, "", ""⟩

/-- Modelled from the spec: a GPO is a named mapping
`domain -> ordered sequence of Rule Entry`; the Go map is embedded as an
association list in iteration order. -/
structure GPO where
  name : String
  rules : List (String × List Entry)
deriving DecidableEq

/-- `Policies` from the source: the ordered GPO list (index 0 = closest)
plus an opaque auxiliary data reference (`Data io.ReaderAt`, excluded from
serialization), modelled as an opaque number. -/
structure Policies where
  GPOs : List GPO
  Data : Nat
deriving DecidableEq

/-- Pointwise update of a function-modelled Go map. -/
def updFn {β : Type} (f : String → β) (k : String) (v : β) : String → β :=
  fun k' => if k' = k then v else f k'

/-- Lexicographic comparison of character lists by code point, the order
`sort.Strings` uses (byte-wise comparison of UTF-8 strings coincides with
code-point-wise comparison). -/
def leChars : List Char → List Char → Bool
  | [], _ => true
  | _ :: _, [] => false
  | a :: as, b :: bs => if a = b then leChars as bs else decide (a.toNat < b.toNat)

/-- `sort.Strings` ordering on strings. -/
def strLe (a b : String) : Prop := leChars a.data b.data = true

instance : DecidableRel strLe := fun a b => by
  unfold strLe
  infer_instance

/-- The mutable state of the dedup loop in `GetUniqueRules`:
`dedup[t][key]`, `keys[t]` and the `seen` set (keyed by `t + key`). -/
structure MergeState where
  dedup : String → String → Option Entry
  keys : String → List String
  seen : String → Bool

/-- The state before the GPO loop starts. -/
def initState : MergeState := ⟨fun _ _ => none, fun _ => [], fun _ => false⟩

/-- Store entry `e` under `(t, e.Key)`, record the key and mark it seen:
the common tail of the loop body for a not-yet-seen key. -/
def recordNew (s : MergeState) (t : String) (e : Entry) : MergeState :=
  ⟨updFn s.dedup t (updFn (s.dedup t) e.Key (some e)),
   updFn s.keys t (s.keys t ++ [e.Key]),
   updFn s.seen (t ++ e.Key) true⟩

/-- Replace the entry stored at `(t, k)` leaving `keys` and `seen` alone:
the append-merge branch (`continue` skips the tail). -/
def storeOnly (s : MergeState) (t k : String) (e : Entry) : MergeState :=
  ⟨updFn s.dedup t (updFn (s.dedup t) k (some e)),
   s.keys,
   s.seen⟩

/-- The body of the inner entry loop of `GetUniqueRules` for one entry `e`
of domain `t`, translated branch by branch from the Go switch. -/
def processEntry (t : String) (s : MergeState) (e : Entry) : MergeState :=
  if e.Strategy = StrategyAppend then
    if e.Disabled then s
    else if s.seen (t ++ e.Key) then
      let old := (s.dedup t e.Key).getD Entry.zero
      if old.Strategy = StrategyAppend then
        storeOnly s t e.Key ⟨e.Key, e.Value ++ "\n" ++ old.Value, e.Disabled, old.Meta, e.Strategy⟩
      else s
    else recordNew s t e
  else
    if s.seen (t ++ e.Key) then s
    else recordNew s t e

/-- Process all entries of one domain of a GPO. -/
def processDomain (s : MergeState) (t : String) (es : List Entry) : MergeState :=
  es.foldl (processEntry t) s

/-- Process one GPO: every domain of its rules map, in iteration order. -/
def processGPO (s : MergeState) (g : GPO) : MergeState :=
  g.rules.foldl (fun s' p => processDomain s' p.1 p.2) s

/-- The whole dedup loop over the GPO list (index 0 = closest, first). -/
def mergeGPOs (gpos : List GPO) : MergeState :=
  gpos.foldl processGPO initState

/-- `Policies.GetUniqueRules`: run the dedup loop, then for each domain
sort its recorded keys in ascending order and emit the stored entries.
A domain with no entries yields `[]`, as a missing key of the Go result
map yields a nil slice. -/
def GetUniqueRules (pols : Policies) : String → List Entry :=
  fun t =>
    let s := mergeGPOs pols.GPOs
    (List.insertionSort strLe (s.keys t)).map
      (fun k => (s.dedup t k).getD Entry.zero)

def Char.toNat_inj {a b : Char} (h : a.toNat = b.toNat) : a = b := by
  apply Char.ext
  apply UInt32.ext
  simpa [Char.toNat, UInt32.toNat] using h

def leChars_total : ∀ (a b : List Char), leChars a b = true ∨ leChars b a = true
  | [], _ => Or.inl rfl
  | _ :: _, [] => Or.inr rfl
  | a :: as, b :: bs => by
    by_cases hab : a = b
    · subst hab
      simpa [leChars] using leChars_total as bs
    · have hn : a.toNat ≠ b.toNat := fun h => hab (Char.toNat_inj h)
      rcases Nat.lt_or_ge a.toNat b.toNat with h | h
      · left
        simp [leChars, hab, h]
      · right
        have hba : b ≠ a := fun h' => hab h'.symm
        have : b.toNat < a.toNat := lt_of_le_of_ne h (fun h' => hn h'.symm)
        simp [leChars, hba, this]

def leChars_trans :
    ∀ (a b c : List Char), leChars a b = true → leChars b c = true → leChars a c = true
  | [], _, _ => by intro _ _; rfl
  | _ :: _, [], _ => by intro h _; simp [leChars] at h
  | _ :: _, _ :: _, [] => by intro _ h; simp [leChars] at h
  | x :: xs, y :: ys, z :: zs => by
    intro h1 h2
    by_cases hxy : x = y
    · subst hxy
      simp only [leChars, if_pos rfl] at h1
      by_cases hxz : x = z
      · subst hxz
        simp only [leChars, if_pos rfl] at h2 ⊢
        exact leChars_trans xs ys zs h1 h2
      · simpa [leChars, hxz] using (by simpa [leChars, hxz] using h2)
    · simp only [leChars, if_neg hxy, decide_eq_true_eq] at h1
      by_cases hyz : y = z
      · subst hyz
        simp [leChars, hxy, h1]
      · simp only [leChars, if_neg hyz, decide_eq_true_eq] at h2
        have hlt : x.toNat < z.toNat := Nat.lt_trans h1 h2
        have hxz : x ≠ z := fun h => absurd (congrArg Char.toNat h) (Nat.ne_of_lt hlt)
        simp [leChars, hxz, hlt]

instance : IsTotal String strLe :=
  ⟨fun a b => leChars_total a.data b.data⟩

instance : IsTrans String strLe :=
  ⟨fun a b c => leChars_trans a.data b.data c.data⟩

/-- The loop invariant of the dedup loop: every recorded key is seen and
has a stored entry, key lists are duplicate-free, stored entries carry
their own key, and stored append entries are enabled. -/
structure Inv (s : MergeState) : Prop where
  seen_of_mem : ∀ t k, k ∈ s.keys t → s.seen (t ++ k) = true
  nodup : ∀ t, (s.keys t).Nodup
  key_eq : ∀ t k e, s.dedup t k = some e → e.Key = k
  append_enabled : ∀ t k e, s.dedup t k = some e → e.Strategy = StrategyAppend →
    e.Disabled = false
  isSome_of_mem : ∀ t k, k ∈ s.keys t → (s.dedup t k).isSome = true

/-- The state of an append chain for `(t, k)`: key seen, stored entry has
append strategy and provenance metadata `m`. -/
def chainMeta (s : MergeState) (t k m : String) : Prop :=
  s.seen (t ++ k) = true ∧
  ∃ e, s.dedup t k = some e ∧ e.Strategy = StrategyAppend ∧ e.Meta = m

/-- The value carried by the Ubuntu Advantage D-Bus status property: a
string, or a value of some unexpected type (the failed type assertion in
the source). -/
inductive DbusValue where
  | str (s : String)
  | other
deriving DecidableEq

/-- `Manager.getSubcriptionState`: the transport result is `Except` (a
D-Bus error or a property value). Transport failure and non-string values
yield `false`; a string is entitled only when it is `"enabled"`. The Bool
return type reflects that no error is ever propagated. -/
def getSubcriptionState (prop : Except String DbusValue) : Bool :=
  match prop with
  | Except.error _ => false
  | Except.ok DbusValue.other => false
  | Except.ok (DbusValue.str enabled) => if ¬ enabled = "enabled" then false else true

/-- The outcomes of the three backend appliers consumed by
`ApplyPolicies` (each is an external collaborator returning an error or
success). -/
structure Backends where
  dconfOk : Bool
  privilegeOk : Bool
  gdmOk : Bool
deriving DecidableEq

/-- Observable actions of one `ApplyPolicies` call, in order. -/
inductive Event where
  | dconfCall (rules : List Entry)
  | privilegeCall (rules : List Entry)
  | gdmCall (rules : List Entry)
  | saveCache (target : String)
deriving DecidableEq

/-- Result of one `ApplyPolicies` call: the ordered backend/cache events,
the cache directory afterwards, and whether the call returned nil. -/
structure ApplyResult where
  trace : List Event
  cache : String → Option (List GPO)
  ok : Bool

/-- `filterRules`: drop the rule domains the current entitlement does not
unlock (`rules["privilege"] = nil`). -/
def filterRules (rules : String → List Entry) : String → List Entry :=
  fun t => if t = "privilege" then [] else rules t

/-- `NewFromCache`: read the serialized Policy Set (its GPO list; the
auxiliary `Data` is excluded from serialization) for target `p`, or a
read error naming the missing target. -/
def NewFromCache (cache : String → Option (List GPO)) (p : String) :
    Except String (List GPO) :=
  match cache p with
  | some gpos => Except.ok gpos
  | none => Except.error p

/-- `Manager.ApplyPolicies`: merge, dispatch dconf, evaluate the
entitlement gate and filter, dispatch privilege, wait for both, then (for
machine scope) run gdm, and on full success persist the GPO list under
`objectName`. The concurrent `errgroup` is modelled by its observable
contract: both goroutines are dispatched, `Wait` fails iff either failed,
and everything after `Wait` happens only when both succeeded. -/
def ApplyPolicies (bk : Backends) (prop : Except String DbusValue) (objectName : String)
    (isComputer : Bool) (pols : Policies) (cache : String → Option (List GPO)) :
    ApplyResult :=
  let rules := GetUniqueRules pols
  let rules2 := if getSubcriptionState prop then rules else filterRules rules
  let t0 := [Event.dconfCall (rules ("dconf")), Event.privilegeCall (rules2 ("privilege"))]
  if bk.dconfOk && bk.privilegeOk then
    if isComputer then
      if bk.gdmOk then
        ⟨t0 ++ [Event.gdmCall (rules2 ("gdm")), Event.saveCache objectName],
         updFn cache objectName (some pols.GPOs), true⟩
      else ⟨t0 ++ [Event.gdmCall (rules2 ("gdm"))], cache, false⟩
    else ⟨t0 ++ [Event.saveCache objectName],
          updFn cache objectName (some pols.GPOs), true⟩
  else ⟨t0, cache, false⟩

/-- The arguments of the privilege backend invocations of a trace. -/
def privilegeArgs (tr : List Event) : List (List Entry) :=
  tr.filterMap (fun ev => match ev with
    | Event.privilegeCall r => some r
    | _ => none)

@[simp]
theorem recordNew_dedup (s : MergeState) (t : String) (e : Entry) (t' k : String) :
    (recordNew s t e).dedup t' k
      = if t' = t then (if k = e.Key then some e else s.dedup t' k) else s.dedup t' k := by
  simp only [recordNew, updFn]
  by_cases h : t' = t <;> simp [h, updFn]

@[simp]
theorem recordNew_keys (s : MergeState) (t : String) (e : Entry) (t' : String) :
    (recordNew s t e).keys t' = if t' = t then s.keys t ++ [e.Key] else s.keys t' := by
  simp [recordNew, updFn]

@[simp]
theorem recordNew_seen (s : MergeState) (t : String) (e : Entry) (x : String) :
    (recordNew s t e).seen x = if x = t ++ e.Key then true else s.seen x := by
  simp [recordNew, updFn]

@[simp]
theorem storeOnly_dedup (s : MergeState) (t k : String) (e : Entry) (t' k' : String) :
    (storeOnly s t k e).dedup t' k'
      = if t' = t then (if k' = k then some e else s.dedup t' k') else s.dedup t' k' := by
  simp only [storeOnly, updFn]
  by_cases h : t' = t <;> simp [h, updFn]

@[simp]
theorem storeOnly_keys (s : MergeState) (t k : String) (e : Entry) :
    (storeOnly s t k e).keys = s.keys := rfl

@[simp]
theorem storeOnly_seen (s : MergeState) (t k : String) (e : Entry) :
    (storeOnly s t k e).seen = s.seen := rfl

/-- A property preserved by every entry step is preserved by a whole
domain's entry list. -/
theorem preserve_processDomain {P : MergeState → Prop}
    (hstep : ∀ (t : String) (s : MergeState) (e : Entry), P s → P (processEntry t s e)) :
    ∀ (es : List Entry) (t : String) (s : MergeState), P s → P (processDomain s t es)
  | [], _, _, h => h
  | e :: es, t, s, h =>
    preserve_processDomain hstep es t (processEntry t s e) (hstep t s e h)

/-- A property preserved by every entry step is preserved by folding any
list of `(domain, entries)` pairs. -/
theorem preserve_foldl_domains {P : MergeState → Prop}
    (hstep : ∀ (t : String) (s : MergeState) (e : Entry), P s → P (processEntry t s e)) :
    ∀ (ps : List (String × List Entry)) (s : MergeState), P s →
      P (ps.foldl (fun s' p => processDomain s' p.1 p.2) s)
  | [], _, h => h
  | p :: ps, s, h =>
    preserve_foldl_domains hstep ps (processDomain s p.1 p.2)
      (preserve_processDomain hstep p.2 p.1 s h)

/-- A property preserved by every entry step is preserved by folding any
list of GPOs. -/
theorem preserve_foldl_gpos {P : MergeState → Prop}
    (hstep : ∀ (t : String) (s : MergeState) (e : Entry), P s → P (processEntry t s e)) :
    ∀ (gs : List GPO) (s : MergeState), P s → P (gs.foldl processGPO s)
  | [], _, h => h
  | g :: gs, s, h =>
    preserve_foldl_gpos hstep gs (processGPO s g)
      (preserve_foldl_domains hstep g.rules s h)

theorem inv_initState : Inv initState := by
  constructor <;> intro t <;> simp [initState]

theorem inv_recordNew {s : MergeState} {t : String} {e : Entry} (hs : Inv s)
    (hns : s.seen (t ++ e.Key) = false)
    (hae : e.Strategy = StrategyAppend → e.Disabled = false) :
    Inv (recordNew s t e) := by
  constructor
  · intro t' k hk
    simp only [recordNew_keys] at hk
    simp only [recordNew_seen]
    by_cases h1 : t' ++ k = t ++ e.Key
    · simp [h1]
    · rw [if_neg h1]
      by_cases h2 : t' = t
      · subst h2
        rw [if_pos rfl] at hk
        rcases List.mem_append.mp hk with hk | hk
        · exact hs.seen_of_mem t' k hk
        · exact absurd (by rw [List.mem_singleton.mp hk]) h1
      · rw [if_neg h2] at hk
        exact hs.seen_of_mem t' k hk
  · intro t'
    simp only [recordNew_keys]
    by_cases h2 : t' = t
    · subst h2
      have hnotmem : e.Key ∉ s.keys t' := fun hmem => by
        have := hs.seen_of_mem t' e.Key hmem
        rw [this] at hns
        exact Bool.true_eq_false.mp hns
      simp [List.nodup_append, hs.nodup t', hnotmem]
    · simpa [h2] using hs.nodup t'
  · intro t' k e' he'
    simp only [recordNew_dedup] at he'
    by_cases h2 : t' = t
    · by_cases h3 : k = e.Key
      · rw [if_pos h2, if_pos h3] at he'
        rw [← Option.some_inj.mp he', h3]
      · rw [if_pos h2, if_neg h3] at he'
        exact hs.key_eq t' k e' he'
    · rw [if_neg h2] at he'
      exact hs.key_eq t' k e' he'
  · intro t' k e' he' hstrat
    simp only [recordNew_dedup] at he'
    by_cases h2 : t' = t
    · by_cases h3 : k = e.Key
      · rw [if_pos h2, if_pos h3] at he'
        rw [← Option.some_inj.mp he'] at hstrat ⊢
        exact hae hstrat
      · rw [if_pos h2, if_neg h3] at he'
        exact hs.append_enabled t' k e' he' hstrat
    · rw [if_neg h2] at he'
      exact hs.append_enabled t' k e' he' hstrat
  · intro t' k hk
    simp only [recordNew_keys] at hk
    simp only [recordNew_dedup]
    by_cases h2 : t' = t
    · subst h2
      rw [if_pos rfl] at hk
      rw [if_pos rfl]
      rcases List.mem_append.mp hk with hk | hk
      · by_cases h3 : k = e.Key
        · simp [h3]
        · rw [if_neg h3]
          exact hs.isSome_of_mem t' k hk
      · simp [List.mem_singleton.mp hk]
    · rw [if_neg h2] at hk ⊢
      exact hs.isSome_of_mem t' k hk

theorem inv_processEntry (t : String) (s : MergeState) (e : Entry) (hs : Inv s) :
    Inv (processEntry t s e) := by
  unfold processEntry
  by_cases h1 : e.Strategy = StrategyAppend
  · rw [if_pos h1]
    by_cases h2 : e.Disabled
    · simpa [h2] using hs
    · rw [if_neg h2]
      by_cases h3 : s.seen (t ++ e.Key) = true
      · rw [if_pos h3]
        by_cases h4 : ((s.dedup t e.Key).getD Entry.zero).Strategy = StrategyAppend
        · rw [if_pos h4]
          constructor
          · intro t' k hk
            simpa using hs.seen_of_mem t' k hk
          · intro t'
            simpa using hs.nodup t'
          · intro t' k e' he'
            simp only [storeOnly_dedup] at he'
            by_cases h5 : t' = t
            · by_cases h6 : k = e.Key
              · rw [if_pos h5, if_pos h6] at he'
                rw [← Option.some_inj.mp he', h6]
              · rw [if_pos h5, if_neg h6] at he'
                exact hs.key_eq t' k e' he'
            · rw [if_neg h5] at he'
              exact hs.key_eq t' k e' he'
          · intro t' k e' he' hstrat
            simp only [storeOnly_dedup] at he'
            by_cases h5 : t' = t
            · by_cases h6 : k = e.Key
              · rw [if_pos h5, if_pos h6] at he'
                rw [← Option.some_inj.mp he']
                simpa using Bool.of_not_eq_true h2
              · rw [if_pos h5, if_neg h6] at he'
                exact hs.append_enabled t' k e' he' hstrat
            · rw [if_neg h5] at he'
              exact hs.append_enabled t' k e' he' hstrat
          · intro t' k hk
            simp only [storeOnly_keys] at hk
            simp only [storeOnly_dedup]
            by_cases h5 : t' = t
            · by_cases h6 : k = e.Key
              · simp [h5, h6]
              · rw [if_pos h5, if_neg h6]
                exact hs.isSome_of_mem t' k hk
            · rw [if_neg h5]
              exact hs.isSome_of_mem t' k hk
        · rw [if_neg h4]
          exact hs
      · rw [if_neg h3]
        exact inv_recordNew hs (Bool.not_eq_true _ ▸ h3) (fun _ => Bool.of_not_eq_true h2)
  · rw [if_neg h1]
    by_cases h3 : s.seen (t ++ e.Key) = true
    · rw [if_pos h3]
      exact hs
    · rw [if_neg h3]
      exact inv_recordNew hs (Bool.not_eq_true _ ▸ h3) (fun hc => absurd hc h1)

theorem inv_mergeGPOs (gpos : List GPO) : Inv (mergeGPOs gpos) :=
  preserve_foldl_gpos inv_processEntry gpos initState inv_initState

theorem pairwise_imp_mem {α : Type} {R S : α → α → Prop} :
    ∀ (l : List α), (∀ a b, a ∈ l → b ∈ l → R a b → S a b) → l.Pairwise R → l.Pairwise S
  | [], _, _ => List.Pairwise.nil
  | a :: l, h, hp => by
    rcases List.pairwise_cons.mp hp with ⟨h1, h2⟩
    refine List.pairwise_cons.mpr ⟨?_, ?_⟩
    · intro b hb
      exact h a b (List.mem_cons_self a l) (List.mem_cons_of_mem a hb) (h1 b hb)
    · exact pairwise_imp_mem l
        (fun x y hx hy => h x y (List.mem_cons_of_mem a hx) (List.mem_cons_of_mem a hy)) h2

/-- The stored entry for a recorded key `k` of domain `t`, as emitted by
the output loop. Its `Key` field is `k` itself. -/
theorem emitted_key_eq {s : MergeState} (hs : Inv s) {t k : String}
    (hk : k ∈ s.keys t) : ((s.dedup t k).getD Entry.zero).Key = k := by
  rcases Option.isSome_iff_exists.mp (hs.isSome_of_mem t k hk) with ⟨e, he⟩
  rw [he]
  exact hs.key_eq t k e he

theorem mem_getUniqueRules {pols : Policies} {t : String} {e : Entry}
    (he : e ∈ GetUniqueRules pols t) :
    ∃ k, k ∈ (mergeGPOs pols.GPOs).keys t ∧ (mergeGPOs pols.GPOs).dedup t k = some e := by
  simp only [GetUniqueRules, List.mem_map] at he
  rcases he with ⟨k, hk, hfk⟩
  have hk' : k ∈ (mergeGPOs pols.GPOs).keys t := by
    simpa using (List.perm_insertionSort strLe _).subset hk
  refine ⟨k, hk', ?_⟩
  rcases Option.isSome_iff_exists.mp ((inv_mergeGPOs pols.GPOs).isSome_of_mem t k hk')
    with ⟨e', he'⟩
  rw [he', Option.getD_some] at hfk
  rw [he', hfk]

theorem recordNew_seen_preserved {s : MergeState} {t k t' : String} {e' : Entry}
    (hseen : s.seen (t ++ k) = true) :
    (recordNew s t' e').seen (t ++ k) = true := by
  simp only [recordNew_seen]
  by_cases h : t ++ k = t' ++ e'.Key
  · simp [h]
  · rw [if_neg h]
    exact hseen

theorem recordNew_dedup_preserved {s : MergeState} {t k t' : String} {e' : Entry}
    (hseen : s.seen (t ++ k) = true) (hns : ¬ s.seen (t' ++ e'.Key) = true) :
    (recordNew s t' e').dedup t k = s.dedup t k := by
  simp only [recordNew_dedup]
  by_cases h5 : t = t'
  · by_cases h6 : k = e'.Key
    · exact absurd (h5 ▸ h6 ▸ hseen) hns
    · rw [if_pos h5, if_neg h6]
  · rw [if_neg h5]

/-- Once a non-append (override) entry is stored and its key is seen, no
later processed entry ever changes that cell. -/
theorem locked_step {t k : String} {e : Entry} (hstrat : ¬ e.Strategy = StrategyAppend) :
    ∀ (t' : String) (s : MergeState) (e' : Entry),
      (s.seen (t ++ k) = true ∧ s.dedup t k = some e) →
      ((processEntry t' s e').seen (t ++ k) = true ∧
       (processEntry t' s e').dedup t k = some e) := by
  intro t' s e' h
  rcases h with ⟨hseen, hded⟩
  unfold processEntry
  by_cases h1 : e'.Strategy = StrategyAppend
  · rw [if_pos h1]
    by_cases h2 : e'.Disabled = true
    · rw [if_pos h2]
      exact ⟨hseen, hded⟩
    · rw [if_neg h2]
      by_cases h3 : s.seen (t' ++ e'.Key) = true
      · rw [if_pos h3]
        by_cases h4 : ((s.dedup t' e'.Key).getD Entry.zero).Strategy = StrategyAppend
        · rw [if_pos h4]
          refine ⟨hseen, ?_⟩
          simp only [storeOnly_dedup]
          by_cases h5 : t = t'
          · by_cases h6 : k = e'.Key
            · exfalso
              rw [← h5, ← h6, hded, Option.getD_some] at h4
              exact hstrat h4
            · rw [if_pos h5, if_neg h6]
              exact hded
          · rw [if_neg h5]
            exact hded
        · rw [if_neg h4]
          exact ⟨hseen, hded⟩
      · rw [if_neg h3]
        exact ⟨recordNew_seen_preserved hseen,
               (recordNew_dedup_preserved hseen h3).trans hded⟩
  · rw [if_neg h1]
    by_cases h3 : s.seen (t' ++ e'.Key) = true
    · rw [if_pos h3]
      exact ⟨hseen, hded⟩
    · rw [if_neg h3]
      exact ⟨recordNew_seen_preserved hseen,
             (recordNew_dedup_preserved hseen h3).trans hded⟩

theorem chainMeta_step (t k m : String) :
    ∀ (t' : String) (s : MergeState) (e' : Entry),
      chainMeta s t k m → chainMeta (processEntry t' s e') t k m := by
  intro t' s e' h
  rcases h with ⟨hseen, e, hded, hstrat, hmeta⟩
  unfold processEntry
  by_cases h1 : e'.Strategy = StrategyAppend
  · rw [if_pos h1]
    by_cases h2 : e'.Disabled = true
    · rw [if_pos h2]
      exact ⟨hseen, e, hded, hstrat, hmeta⟩
    · rw [if_neg h2]
      by_cases h3 : s.seen (t' ++ e'.Key) = true
      · rw [if_pos h3]
        by_cases h4 : ((s.dedup t' e'.Key).getD Entry.zero).Strategy = StrategyAppend
        · rw [if_pos h4]
          refine ⟨hseen, ?_⟩
          by_cases h5 : t = t'
          · by_cases h6 : k = e'.Key
            · refine ⟨⟨e'.Key, e'.Value ++ "\n" ++ ((s.dedup t' e'.Key).getD Entry.zero).Value,
                e'.Disabled, ((s.dedup t' e'.Key).getD Entry.zero).Meta, e'.Strategy⟩,
                ?_, h1, ?_⟩
              · simp only [storeOnly_dedup]
                rw [if_pos h5, if_pos h6]
              · show ((s.dedup t' e'.Key).getD Entry.zero).Meta = m
                rw [← h5, ← h6, hded, Option.getD_some, hmeta]
            · refine ⟨e, ?_, hstrat, hmeta⟩
              simp only [storeOnly_dedup]
              rw [if_pos h5, if_neg h6]
              exact hded
          · refine ⟨e, ?_, hstrat, hmeta⟩
            simp only [storeOnly_dedup]
            rw [if_neg h5]
            exact hded
        · rw [if_neg h4]
          exact ⟨hseen, e, hded, hstrat, hmeta⟩
      · rw [if_neg h3]
        exact ⟨recordNew_seen_preserved hseen, e,
               (recordNew_dedup_preserved hseen h3).trans hded, hstrat, hmeta⟩
  · rw [if_neg h1]
    by_cases h3 : s.seen (t' ++ e'.Key) = true
    · rw [if_pos h3]
      exact ⟨hseen, e, hded, hstrat, hmeta⟩
    · rw [if_neg h3]
      exact ⟨recordNew_seen_preserved hseen, e,
             (recordNew_dedup_preserved hseen h3).trans hded, hstrat, hmeta⟩

theorem processEntry_new_append {t : String} {s : MergeState} {e : Entry}
    (h1 : e.Strategy = StrategyAppend) (h2 : e.Disabled = false)
    (h3 : s.seen (t ++ e.Key) = false) :
    processEntry t s e = recordNew s t e := by
  unfold processEntry
  rw [if_pos h1, if_neg (by simp [h2]), if_neg (by simp [h3])]

/-- C3: for every Policy Set, the per-domain output of `GetUniqueRules` is
sorted in ascending lexical order of key and holds at most one entry per
key. -/
theorem getUniqueRules_sorted_unique (pols : Policies) (t : String) :
    List.Sorted (fun a b : Entry => strLe a.Key b.Key) (GetUniqueRules pols t) ∧
    List.Pairwise (fun a b : Entry => a.Key ≠ b.Key) (GetUniqueRules pols t) := by
  have hinv := inv_mergeGPOs pols.GPOs
  have hchar : ∀ k ∈ List.insertionSort strLe ((mergeGPOs pols.GPOs).keys t),
      (((mergeGPOs pols.GPOs).dedup t k).getD Entry.zero).Key = k := by
    intro k hk
    exact emitted_key_eq hinv (by simpa using (List.perm_insertionSort strLe _).subset hk)
  constructor
  · show List.Pairwise _ _
    rw [GetUniqueRules, List.pairwise_map]
    refine pairwise_imp_mem _ ?_ (List.sorted_insertionSort strLe _)
    intro a b ha hb hab
    rw [hchar a ha, hchar b hb]
    exact hab
  · rw [GetUniqueRules, List.pairwise_map]
    have hnd : (List.insertionSort strLe ((mergeGPOs pols.GPOs).keys t)).Nodup :=
      ((List.perm_insertionSort strLe _).nodup_iff).mpr (hinv.nodup t)
    refine pairwise_imp_mem _ ?_ hnd
    intro a b ha hb hab
    rw [hchar a ha, hchar b hb]
    exact hab

/-- C4: a disabled Append entry is skipped outright — processing it leaves
the state untouched (it neither starts, extends, nor marks seen any
chain) — and no append-strategy entry of any merged output is disabled. -/
theorem disabled_append_no_contribution :
    (∀ (t : String) (s : MergeState) (e : Entry),
        e.Strategy = StrategyAppend → e.Disabled = true → processEntry t s e = s) ∧
    (∀ (pols : Policies) (t : String) (e : Entry),
        e ∈ GetUniqueRules pols t → e.Strategy = StrategyAppend → e.Disabled = false) := by
  constructor
  · intro t s e h1 h2
    unfold processEntry
    rw [if_pos h1, if_pos h2]
  · intro pols t e he hstrat
    rcases mem_getUniqueRules he with ⟨k, _, hde⟩
    exact (inv_mergeGPOs pols.GPOs).append_enabled t k e hde hstrat

/-- Witness for C4 at a concrete disabled append entry. -/
theorem disabled_append_no_contribution_witness :
    processEntry ("dconf") initState ⟨"a", "y", true, "m", StrategyAppend⟩ = initState :=
  disabled_append_no_contribution.1 ("dconf") initState
    ⟨"a", "y", true, "m", StrategyAppend⟩ rfl rfl

/-- C1 counterexample: for `[G1{a,x,Append}, G2{a,y,Append}]` (G1 closer)
the merged value for key `a` is not `"x\ny"`. -/
theorem append_chain_value_ne_closer_first :
    (GetUniqueRules ⟨[⟨"G1", [("dconf", [⟨"a", "x", false, "m1", StrategyAppend⟩])]⟩,
                      ⟨"G2", [("dconf", [⟨"a", "y", false, "m2", StrategyAppend⟩])]⟩], 0⟩
        ("dconf")).map Entry.Value ≠ ["x\ny"] := by decide

/-- C1 amended: for the append chain `[G1{a,x,Append}, G2{a,y,Append}]`
(G1 closer) the merged value is `"y\nx"`: each merge step stores
`newValue + "\n" + existingValue` where the new value is the farther
(currently processed) entry's value, so the farther content appears first
and the closer accumulated content last. -/
theorem append_chain_farther_first :
    GetUniqueRules ⟨[⟨"G1", [("dconf", [⟨"a", "x", false, "m1", StrategyAppend⟩])]⟩,
                     ⟨"G2", [("dconf", [⟨"a", "y", false, "m2", StrategyAppend⟩])]⟩], 0⟩
      ("dconf") = [⟨"a", "y\nx", false, "m1", StrategyAppend⟩] ∧
    (∀ (t : String) (s : MergeState) (e old : Entry),
        e.Strategy = StrategyAppend → e.Disabled = false →
        s.seen (t ++ e.Key) = true → s.dedup t e.Key = some old →
        old.Strategy = StrategyAppend →
        (processEntry t s e).dedup t e.Key
          = some ⟨e.Key, e.Value ++ "\n" ++ old.Value, e.Disabled, old.Meta, e.Strategy⟩) := by
  constructor
  · decide
  · intro t s e old h1 h2 h3 h4 h5
    unfold processEntry
    rw [if_pos h1, if_neg (by simp [h2]), if_pos h3, if_pos (by rw [h4, Option.getD_some]; exact h5)]
    simp only [storeOnly_dedup, if_pos rfl]
    rw [h4, Option.getD_some]
    simp

/-- Witness for the general step of the amended C1, at the concrete chain
of the example: merging `G2{a,y}` onto the stored `G1{a,x}`. -/
theorem append_chain_farther_first_witness :
    (processEntry ("dconf")
        (mergeGPOs [⟨"G1", [("dconf", [⟨"a", "x", false, "m1", StrategyAppend⟩])]⟩])
        ⟨"a", "y", false, "m2", StrategyAppend⟩).dedup ("dconf") ("a")
      = some ⟨"a", "y\nx", false, "m1", StrategyAppend⟩ :=
  append_chain_farther_first.2 ("dconf")
    (mergeGPOs [⟨"G1", [("dconf", [⟨"a", "x", false, "m1", StrategyAppend⟩])]⟩])
    ⟨"a", "y", false, "m2", StrategyAppend⟩ ⟨"a", "x", false, "m1", StrategyAppend⟩
    rfl rfl (by decide) (by decide) rfl

/-- C2: an override contribution from a closer GPO is permanent — once the
pair is seen with a stored non-append entry, processing any farther GPOs
leaves that cell unchanged (a farther override is ignored, a farther
enabled append is dropped) — and on the concrete Policy Set
`[G1{a,x,Override}, G2{a,y,Append,enabled}]` the merged value is `"x"`. -/
theorem override_blocks_farther :
    (∀ (gs : List GPO) (s : MergeState) (t k : String) (e : Entry),
        s.seen (t ++ k) = true → s.dedup t k = some e → ¬ e.Strategy = StrategyAppend →
        (gs.foldl processGPO s).dedup t k = some e) ∧
    GetUniqueRules ⟨[⟨"G1", [("dconf", [⟨"a", "x", false, "m1", StrategyOverride⟩])]⟩,
                     ⟨"G2", [("dconf", [⟨"a", "y", false, "m2", StrategyAppend⟩])]⟩], 0⟩
      ("dconf") = [⟨"a", "x", false, "m1", StrategyOverride⟩] := by
  constructor
  · intro gs s t k e hseen hded hstrat
    exact (preserve_foldl_gpos (locked_step hstrat) gs s ⟨hseen, hded⟩).2
  · decide

/-- Witness for C2: the locked override cell of the example survives the
processing of the farther GPO `G2`. -/
theorem override_blocks_farther_witness :
    (([⟨"G2", [("dconf", [⟨"a", "y", false, "m2", StrategyAppend⟩])]⟩] : List GPO).foldl
        processGPO
        (mergeGPOs [⟨"G1", [("dconf", [⟨"a", "x", false, "m1", StrategyOverride⟩])]⟩])).dedup
      ("dconf") ("a") = some ⟨"a", "x", false, "m1", StrategyOverride⟩ :=
  override_blocks_farther.1 [⟨"G2", [("dconf", [⟨"a", "y", false, "m2", StrategyAppend⟩])]⟩]
    (mergeGPOs [⟨"G1", [("dconf", [⟨"a", "x", false, "m1", StrategyOverride⟩])]⟩])
    ("dconf") ("a") ⟨"a", "x", false, "m1", StrategyOverride⟩
    (by decide) (by decide) (by decide)

/-- C5: the first (closest) contributor of an append chain fixes the
chain's provenance metadata: after the chain is started by an enabled
append entry `e` on an unseen pair, processing any farther GPOs keeps an
append entry stored whose `Meta` is still `e.Meta`, even as the value
string aggregates farther contributors. -/
theorem append_meta_closest :
    ∀ (gs : List GPO) (t : String) (s : MergeState) (e : Entry),
      e.Strategy = StrategyAppend → e.Disabled = false → s.seen (t ++ e.Key) = false →
      chainMeta (gs.foldl processGPO (processEntry t s e)) t e.Key e.Meta := by
  intro gs t s e h1 h2 h3
  have hstart : chainMeta (processEntry t s e) t e.Key e.Meta := by
    rw [processEntry_new_append h1 h2 h3]
    refine ⟨by simp, e, ?_, h1, rfl⟩
    simp
  exact preserve_foldl_gpos (fun t' s' e' => chainMeta_step t e.Key e.Meta t' s' e') gs _ hstart

/-- Witness for C5 on the concrete append chain of the running example:
after `G2{a,y,m2}` extends the chain started by `G1{a,x,m1}`, the stored
metadata is still `"m1"`. -/
theorem append_meta_closest_witness :
    chainMeta (([⟨"G2", [("dconf", [⟨"a", "y", false, "m2", StrategyAppend⟩])]⟩] : List GPO).foldl
        processGPO
        (processEntry ("dconf") initState ⟨"a", "x", false, "m1", StrategyAppend⟩))
      ("dconf") ("a") ("m1") :=
  append_meta_closest [⟨"G2", [("dconf", [⟨"a", "y", false, "m2", StrategyAppend⟩])]⟩]
    ("dconf") initState ⟨"a", "x", false, "m1", StrategyAppend⟩ rfl rfl rfl

/-- C10: the `default` (override) branch never inspects the disabled
flag — a non-append entry is processed identically whatever its
`Disabled` value — and on the concrete Policy Set
`[G1{a,x,Override,disabled}, G2{a,y,Append,enabled}, G3{a,z,Override}]`
the closest, disabled override appears in the output (still disabled) and
blocks both farther entries. -/
theorem disabled_override_like_enabled :
    (∀ (t : String) (s : MergeState) (e : Entry), ¬ e.Strategy = StrategyAppend →
        processEntry t s e
          = if s.seen (t ++ e.Key) = true then s else recordNew s t e) ∧
    GetUniqueRules ⟨[⟨"G1", [("dconf", [⟨"a", "x", true, "m1", StrategyOverride⟩])]⟩,
                     ⟨"G2", [("dconf", [⟨"a", "y", false, "m2", StrategyAppend⟩])]⟩,
                     ⟨"G3", [("dconf", [⟨"a", "z", false, "m3", StrategyOverride⟩])]⟩], 0⟩
      ("dconf") = [⟨"a", "x", true, "m1", StrategyOverride⟩] := by
  constructor
  · intro t s e h
    unfold processEntry
    rw [if_neg h]
  · decide

/-- Witness for C10: processing a concrete disabled override entry on the
initial state records it exactly as an enabled one would be. -/
theorem disabled_override_like_enabled_witness :
    processEntry ("dconf") initState ⟨"a", "x", true, "m1", StrategyOverride⟩
      = recordNew initState ("dconf") ⟨"a", "x", true, "m1", StrategyOverride⟩ := by
  rw [disabled_override_like_enabled.1 ("dconf") initState
    ⟨"a", "x", true, "m1", StrategyOverride⟩ (by decide), if_neg (by decide)]

/-- C6: the gdm backend is invoked only in machine scope and only after
the dconf backend completed successfully: any gdm event implies
`isComputer`, a successful dconf outcome, the dconf dispatch at trace
position 0 and the gdm invocation at position 2. -/
theorem gdm_only_machine_after_dconf :
    ∀ (bk : Backends) (prop : Except String DbusValue) (objectName : String)
      (isComputer : Bool) (pols : Policies) (cache : String → Option (List GPO))
      (r : List Entry),
      Event.gdmCall r ∈ (ApplyPolicies bk prop objectName isComputer pols cache).trace →
      isComputer = true ∧ bk.dconfOk = true ∧
      (ApplyPolicies bk prop objectName isComputer pols cache).trace.head?
        = some (Event.dconfCall (GetUniqueRules pols ("dconf"))) ∧
      (ApplyPolicies bk prop objectName isComputer pols cache).trace.get? 2
        = some (Event.gdmCall r) := by
  intro bk prop objectName isComputer pols cache r h
  rcases bk with ⟨d, p, g⟩
  cases d <;> cases p <;> cases isComputer <;> cases g <;>
    simp_all [ApplyPolicies]

/-- C7: the Policy Set (its GPO list) is persisted under `targetName`
exactly when every dispatched backend succeeded; on success it is
readable back through `NewFromCache` and other targets are untouched; on
failure the cache is exactly as before. -/
theorem cache_saved_iff_success :
    ∀ (bk : Backends) (prop : Except String DbusValue) (objectName : String)
      (isComputer : Bool) (pols : Policies) (cache : String → Option (List GPO)),
      ((ApplyPolicies bk prop objectName isComputer pols cache).ok = true ↔
        (bk.dconfOk = true ∧ bk.privilegeOk = true ∧
         (isComputer = true → bk.gdmOk = true))) ∧
      ((ApplyPolicies bk prop objectName isComputer pols cache).ok = true →
        NewFromCache (ApplyPolicies bk prop objectName isComputer pols cache).cache
            objectName = Except.ok pols.GPOs ∧
        ∀ n, ¬ n = objectName →
          (ApplyPolicies bk prop objectName isComputer pols cache).cache n = cache n) ∧
      ((ApplyPolicies bk prop objectName isComputer pols cache).ok = false →
        (ApplyPolicies bk prop objectName isComputer pols cache).cache = cache) := by
  intro bk prop objectName isComputer pols cache
  rcases bk with ⟨d, p, g⟩
  cases d <;> cases p <;> cases isComputer <;> cases g <;>
    simp_all [ApplyPolicies, NewFromCache, updFn]

/-- C8: the entitlement check returns true exactly on a readable string
property equal to `"enabled"`; transport failures and unexpected types
are fail-closed, and the outcome of `ApplyPolicies` never depends on the
entitlement result (no error is propagated). -/
theorem subscription_enabled_iff :
    ∀ (prop : Except String DbusValue),
      (getSubcriptionState prop = true ↔ prop = Except.ok (DbusValue.str ("enabled"))) ∧
      (∀ (bk : Backends) (objectName : String) (isComputer : Bool) (pols : Policies)
          (cache : String → Option (List GPO)),
        (ApplyPolicies bk prop objectName isComputer pols cache).ok
          = (bk.dconfOk && bk.privilegeOk && (!isComputer || bk.gdmOk))) := by
  intro prop
  constructor
  · rcases prop with e | v
    · simp [getSubcriptionState]
    · rcases v with s | _
      · by_cases h : s = "enabled" <;> simp [getSubcriptionState, h]
      · simp [getSubcriptionState]
  · intro bk objectName isComputer pols cache
    rcases bk with ⟨d, p, g⟩
    cases d <;> cases p <;> cases isComputer <;> cases g <;>
      simp_all [ApplyPolicies]

/-- C9: every `ApplyPolicies` call dispatches the privilege backend
exactly once, with the empty rule list when the entitlement gate is
closed (filtering happens before dispatch) and with the unfiltered merged
privilege rules when it is open. -/
theorem privilege_rules_filtered :
    ∀ (bk : Backends) (prop : Except String DbusValue) (objectName : String)
      (isComputer : Bool) (pols : Policies) (cache : String → Option (List GPO)),
      privilegeArgs (ApplyPolicies bk prop objectName isComputer pols cache).trace
        = [if getSubcriptionState prop = true then GetUniqueRules pols ("privilege")
           else []] := by
  intro bk prop objectName isComputer pols cache
  rcases bk with ⟨d, p, g⟩
  cases hs : getSubcriptionState prop <;>
    cases d <;> cases p <;> cases isComputer <;> cases g <;>
      simp_all [ApplyPolicies, privilegeArgs, filterRules]

/-- Witness for C6: a machine-scope run with all backends succeeding does
invoke gdm, at position 2, after the dconf dispatch at position 0. -/
theorem gdm_only_machine_after_dconf_witness :
    true = true ∧ (⟨true, true, true⟩ : Backends).dconfOk = true ∧
    (ApplyPolicies ⟨true, true, true⟩ (Except.ok DbusValue.other) ("host") true
        ⟨[], 0⟩ (fun _ => none)).trace.head?
      = some (Event.dconfCall (GetUniqueRules ⟨[], 0⟩ ("dconf"))) ∧
    (ApplyPolicies ⟨true, true, true⟩ (Except.ok DbusValue.other) ("host") true
        ⟨[], 0⟩ (fun _ => none)).trace.get? 2 = some (Event.gdmCall []) :=
  gdm_only_machine_after_dconf ⟨true, true, true⟩ (Except.ok DbusValue.other) ("host")
    true ⟨[], 0⟩ (fun _ => none) [] (by decide)

/-- Witness for C7: a fully successful machine-scope run persists the
input GPO list and it reads back through `NewFromCache`. -/
theorem cache_saved_iff_success_witness :
    NewFromCache (ApplyPolicies ⟨true, true, true⟩ (Except.ok DbusValue.other) ("host")
        true ⟨[⟨"G1", [("dconf", [⟨"a", "x", false, "m1", StrategyOverride⟩])]⟩], 0⟩
        (fun _ => none)).cache ("host")
      = Except.ok [⟨"G1", [("dconf", [⟨"a", "x", false, "m1", StrategyOverride⟩])]⟩] :=
  ((cache_saved_iff_success ⟨true, true, true⟩ (Except.ok DbusValue.other) ("host") true
      ⟨[⟨"G1", [("dconf", [⟨"a", "x", false, "m1", StrategyOverride⟩])]⟩], 0⟩
      (fun _ => none)).2.1 (by decide)).1

end Adsys
